import Mathlib

/-!
Shallow embedding of `src/terminal_renderer.rs`: a terminal markdown
renderer consisting of a shared render context (output buffer, formatting
stack, pending-newline counter), four block renderers (code block, table,
blockquote, list) and a driver that dispatches a sequence of parser
events.  Rust `usize` arithmetic that can underflow is modelled by
returning `none` (the panicking/aborting outcome); all other machine
arithmetic in the source only ever increments small counters bounded by
the event count, so it is modelled by `Nat`.
-/

/-! ## String helpers -/

/-- The ASCII escape character, first byte of every ANSI escape sequence. -/
def escChar : Char := Char.ofNat 27

/-- Concatenation of a list of strings (sequential `push_str` calls). -/
def strConcat : List String → String
  | [] => ""
  | s :: ss => s ++ strConcat ss

/-- Rust `str::repeat`: the string `s` repeated `n` times. -/
def strRepeat (s : String) (n : Nat) : String :=
  strConcat (List.replicate n s)

/-- Rust `Vec::join` and the positional loops of the source that emit a
separator at every index except the last. -/
def joinSep (sep : String) : List String → String
  | [] => ""
  | [s] => s
  | s :: ss => s ++ sep ++ joinSep sep ss

/-- Rust `str::ends_with`. -/
def strEndsWith (s p : String) : Bool := decide (p.data <:+ s.data)

/-- Rust `str::contains` on the character list of a string. -/
def listContainsSub : List Char → List Char → Bool
  | [], p => p.isPrefixOf []
  | c :: t, p => p.isPrefixOf (c :: t) || listContainsSub t p

/-- Rust `str::contains` for string patterns. -/
def strContainsSub (s p : String) : Bool := listContainsSub s.data p.data

/-- Rust format left justification with space padding to width `w`
(no truncation of longer strings). -/
def padRight (s : String) (w : Nat) : String := s ++ strRepeat " " (w - s.length)

/-- Occurrences of a character in a string. -/
def countCharS (c : Char) (s : String) : Nat := s.data.count c

/-- Number of trailing newline characters of a string. -/
def trailingNewlines (s : String) : Nat :=
  (s.data.reverse.takeWhile (fun c => c = '\n')).length

/-- Rust `str::trim_end` (drops trailing whitespace; Rust uses the Unicode
White_Space property, which agrees with `Char.isWhitespace` on the ASCII
whitespace manipulated by this renderer). -/
def rustTrimEnd (s : String) : String :=
  String.mk (s.data.reverse.dropWhile Char.isWhitespace).reverse

/-- Splitting a character list at newline characters (auxiliary for Rust
`str::lines`). -/
def splitNewlines : List Char → List Char → List (List Char)
  | [], acc => [acc.reverse]
  | c :: cs, acc =>
    if c = '\n' then acc.reverse :: splitNewlines cs [] else splitNewlines cs (c :: acc)

/-- Strip one trailing carriage return (Rust `str::lines` recognises CRLF). -/
def stripCR (l : List Char) : List Char :=
  if l.getLast? = some (Char.ofNat 13) then l.dropLast else l

/-- Rust `str::lines`: split on newline, do not report a final empty line
after a trailing newline, strip a trailing CR from every line; the empty
string has no lines. -/
def rustLines (s : String) : List String :=
  if s.data = [] then []
  else
    let parts := splitNewlines s.data []
    let parts := if s.data.getLast? = some '\n' then parts.dropLast else parts
    parts.map (fun l => String.mk (stripCR l))

/-- Absence of the escape character, i.e. of any ANSI escape sequence. -/
def noEsc (s : String) : Prop := escChar ∉ s.data

instance (s : String) : Decidable (noEsc s) := by unfold noEsc; infer_instance

/-- Boolean form of escape-character presence. -/
def containsEsc (s : String) : Bool := s.data.contains escChar

/-! ## Render context (struct `RenderContext`) -/

/-- Inline formatting states (enum `FormattingState`). -/
inductive FormattingState where
  | Bold
  | Italic
  | Link
deriving Repr, DecidableEq

/-- Shared context for rendering markdown elements with state tracking
(struct `RenderContext`). -/
structure RenderContext where
  output : String
  formattingStack : List FormattingState
  pendingNewlines : Nat
  useColors : Bool
deriving Repr, DecidableEq

def RenderContext.new (useColors : Bool) : RenderContext :=
  ⟨"", [], 0, useColors⟩

/-- `RenderContext::push_str`: append verbatim, reset the counter. -/
def push_str (ctx : RenderContext) (s : String) : RenderContext :=
  { ctx with output := ctx.output ++ s, pendingNewlines := 0 }

/-- `RenderContext::push_newline`: append one newline, bump the counter. -/
def push_newline (ctx : RenderContext) : RenderContext :=
  { ctx with output := ctx.output ++ "\n", pendingNewlines := ctx.pendingNewlines + 1 }

/-- `RenderContext::ensure_newline`. -/
def ensure_newline (ctx : RenderContext) : RenderContext :=
  if ctx.output ≠ "" ∧ ¬ strEndsWith ctx.output "\n" then push_newline ctx else ctx

/-- `RenderContext::ensure_blank_line`. -/
def ensure_blank_line (ctx : RenderContext) : RenderContext :=
  if ctx.output ≠ "" ∧ ¬ strEndsWith ctx.output "\n\n" ∧ ctx.pendingNewlines < 2 then
    push_newline ctx
  else ctx

/-- `RenderContext::into_output`: trim trailing whitespace, append one newline. -/
def into_output (ctx : RenderContext) : String := rustTrimEnd ctx.output ++ "\n"

/-! ## Inline text rendering -/

/-- Modelled from the colored crate (external dependency): ANSI style
wrapping used by `render_text` and `render_inline_code`. -/
def ansiWrap (code : String) (s : String) : String :=
  String.mk [escChar] ++ "[" ++ code ++ "m" ++ s ++ String.mk [escChar] ++ "[0m"

/-- `MarkdownRenderer::render_text`: apply the formatting stack from the
innermost (last pushed) style outwards when colors are enabled; pass the
text through unchanged otherwise. -/
def render_text (useColors : Bool) (text : String) (stack : List FormattingState) : String :=
  if useColors = false then text
  else
    stack.reverse.foldl
      (fun result st =>
        match st with
        | .Bold => ansiWrap "1" result
        | .Italic => ansiWrap "3" result
        | .Link => ansiWrap "4;34" result)
      text

/-- `MarkdownRenderer::render_inline_code`: reverse video when colors are
enabled, verbatim otherwise. -/
def render_inline_code (useColors : Bool) (code : String) : String :=
  if useColors = false then code else ansiWrap "7" code

/-! ## Code block renderer (struct `CodeBlockRenderer`) -/

structure CodeBlockRenderer where
  buffer : String
deriving Repr, DecidableEq

/-- Longest line length (`lines.iter().map(|l| l.len()).max().unwrap_or(0)`). -/
def cbMaxLen (lines : List String) : Nat := (lines.map String.length).foldl Nat.max 0

/-- `CodeBlockRenderer::render_code_block`: empty output when there are
no lines, otherwise a box-drawing rectangle with every content line
left-justified and space-padded to the longest line length. -/
def render_code_block (code : String) : String :=
  let lines := rustLines code
  if lines = [] then ""
  else
    let maxLen := cbMaxLen lines
    "┌" ++ strRepeat "─" (maxLen + 2) ++ "┐\n" ++
      strConcat (lines.map (fun line => "│" ++ " " ++ padRight line maxLen ++ " " ++ "│\n")) ++
      "└" ++ strRepeat "─" (maxLen + 2) ++ "┘"

/-! ## Table renderer (struct `TableRenderer`) -/

structure TableRenderer where
  rows : List (List String)
  currentRow : List String
  currentCell : String
deriving Repr, DecidableEq

def TableRenderer.new : TableRenderer := ⟨[], [], ""⟩

/-- `TableRenderer::finish_row`: a completed row is appended only when
non-empty. -/
def TableRenderer.finish_row (t : TableRenderer) : TableRenderer :=
  if t.currentRow = [] then t
  else { t with rows := t.rows ++ [t.currentRow], currentRow := [] }

def TableRenderer.start_row (t : TableRenderer) : TableRenderer :=
  { t with currentRow := [] }

def TableRenderer.end_row (t : TableRenderer) : TableRenderer := t.finish_row

def TableRenderer.start_cell (t : TableRenderer) : TableRenderer :=
  { t with currentCell := "" }

/-- `TableRenderer::end_cell`: push the accumulated cell, clear it. -/
def TableRenderer.end_cell (t : TableRenderer) : TableRenderer :=
  { t with currentRow := t.currentRow ++ [t.currentCell], currentCell := "" }

/-- Column count: max row length (`rows.iter().map(|r| r.len()).max().unwrap_or(0)`). -/
def tableNumCols (rows : List (List String)) : Nat :=
  (rows.map List.length).foldl Nat.max 0

/-- One pass of the width loop: `col_widths[i] = col_widths[i].max(cell.len())`
for every cell of one row.  The second pattern is unreachable inside
`render_table` because the widths vector has the maximal row length. -/
def updateWidths : List Nat → List String → List Nat
  | ws, [] => ws
  | [], _ :: _ => []
  | w :: ws, c :: cs => Nat.max w c.length :: updateWidths ws cs

/-- The computed column widths of `render_table`. -/
def colWidths (rows : List (List String)) : List Nat :=
  rows.foldl updateWidths (List.replicate (tableNumCols rows) 0)

/-- Horizontal border segments, one per column, of width `w + 2`. -/
def borderSegs (widths : List Nat) : List String :=
  widths.map (fun w => strRepeat "─" (w + 2))

/-- The cell loop of one table row: space, padded cell, space, vertical bar.
The second pattern is unreachable inside `render_table`. -/
def renderCells : List Nat → List String → String
  | _, [] => ""
  | [], _ :: _ => ""
  | w :: ws, c :: cs => " " ++ padRight c w ++ " " ++ "│" ++ renderCells ws cs

/-- One rendered table row line. -/
def renderRow (widths : List Nat) (row : List String) : String :=
  "│" ++ renderCells widths row ++ "\n"

/-- The separator border emitted between adjacent rows. -/
def sepLine (widths : List Nat) : String :=
  "├" ++ joinSep "┼" (borderSegs widths) ++ "┤\n"

/-- The row loop of `render_table`: each row line, with a separator after
every row except the last. -/
def rowsSection (widths : List Nat) : List (List String) → String
  | [] => ""
  | [r] => renderRow widths r
  | r :: rs => renderRow widths r ++ sepLine widths ++ rowsSection widths rs

/-- `TableRenderer::render_table` (and the identical public
`MarkdownRenderer::render_table`). -/
def render_table (rows : List (List String)) : String :=
  if rows = [] then ""
  else
    let widths := colWidths rows
    "┌" ++ joinSep "┬" (borderSegs widths) ++ "┐\n" ++
      rowsSection widths rows ++
      "└" ++ joinSep "┴" (borderSegs widths) ++ "┘"

/-! ## Blockquote renderer (struct `BlockquoteRenderer`) -/

structure BlockquoteRenderer where
  lines : List String
  currentLine : String
deriving Repr, DecidableEq

def BlockquoteRenderer.new : BlockquoteRenderer := ⟨[], ""⟩

/-- `BlockquoteRenderer::add_prefix_to_lines`: prefix every line with a
vertical bar marker and rejoin. -/
def add_prefix_to_lines (text : String) : String :=
  joinSep "\n" ((rustLines text).map (fun line => "▌ " ++ line))

/-- Soft and hard breaks both flush the current line. -/
def BlockquoteRenderer.flush_line (r : BlockquoteRenderer) : BlockquoteRenderer :=
  { r with lines := r.lines ++ [r.currentLine], currentLine := "" }

/-- `BlockquoteRenderer::end`: flush a non-empty remaining line, join,
prefix every line. -/
def BlockquoteRenderer.finish (r : BlockquoteRenderer) : String :=
  let ls := if r.currentLine ≠ "" then r.lines ++ [r.currentLine] else r.lines
  add_prefix_to_lines (joinSep "\n" ls)

/-! ## List renderer (struct `ListRenderer`) -/

structure ListRenderer where
  depth : Nat
  isOrdered : Bool
  itemIndices : List Nat
  inItem : Bool
  buffer : String
deriving Repr, DecidableEq

/-- `ListRenderer::new`: ordered lists start with the single counter `[0]`. -/
def ListRenderer.new (ordered : Bool) (depth : Nat) : ListRenderer :=
  ⟨depth, ordered, if ordered then [0] else [], false, ""⟩

/-- `ListRenderer::start_item`: returns the updated renderer and the
marker text written directly into the shared output buffer (indentation,
then a pre-incremented ordinal for ordered lists or a bullet glyph).
The caller guarantees `depth ≥ 1`; `depth - 1` underflows in Rust otherwise. -/
def ListRenderer.start_item (r : ListRenderer) (depth : Nat) : ListRenderer × String :=
  let indent := strRepeat "  " (depth - 1)
  if r.isOrdered then
    match r.itemIndices.getLast? with
    | some idx =>
        ({ r with inItem := true, itemIndices := r.itemIndices.dropLast ++ [idx + 1] },
          indent ++ Nat.repr (idx + 1) ++ ". ")
    | none => ({ r with inItem := true }, indent)
  else
    ({ r with inItem := true }, indent ++ "• ")

/-! ## Events (pulldown_cmark `Event`/`Tag`, the subset the driver inspects) -/

/-- Block/inline tags.  `List` carries the optional start number of an
ordered list (only `is_some` is consulted); the heading level, code-block
kind, table alignments and link parameters are ignored by the driver and
therefore elided; `Other` stands for the tags of the catch-all arms. -/
inductive Tag where
  | Paragraph
  | Heading (level : Nat)
  | List (startNum : Option Nat)
  | Item
  | CodeBlock
  | BlockQuote
  | Table
  | TableHead
  | TableRow
  | TableCell
  | Emphasis
  | Strong
  | Link
  | Other
deriving Repr, DecidableEq

/-- Parser events; `Other` stands for the events of the catch-all arm. -/
inductive Event where
  | Start (t : Tag)
  | End (t : Tag)
  | Text (s : String)
  | Code (s : String)
  | Html (s : String)
  | SoftBreak
  | HardBreak
  | TaskListMarker (checked : Bool)
  | Other
deriving Repr, DecidableEq

/-! ## Render driver (`MarkdownRenderer::render`) -/

/-- The driver's mutable state: the shared context plus the optional
block renderers, the list depth counter and the in-item flag. -/
structure RenderState where
  context : RenderContext
  codeRenderer : Option CodeBlockRenderer
  tableRenderer : Option TableRenderer
  blockquoteRenderer : Option BlockquoteRenderer
  listDepth : Nat
  listRenderer : Option ListRenderer
  inListItem : Bool
deriving Repr, DecidableEq

def initState (useColors : Bool) : RenderState :=
  ⟨RenderContext.new useColors, none, none, none, 0, none, false⟩

/-- The hard-break indentation loop: `list_depth - 1` times `push_str("  ")`
followed by one more `push_str("  ")` is modelled by iterating `push_str`. -/
def pushIndent (ctx : RenderContext) : Nat → RenderContext
  | 0 => ctx
  | n + 1 => pushIndent (push_str ctx "  ") n

/-- One iteration of the driver's event loop.  `none` models the Rust
panic: `list_depth -= 1` underflows the `usize` counter when no list is
open (`End(List)`), and `start_item` computes `depth - 1` (the guarding
driver never reaches that site with depth 0, but the model keeps the
panicking outcome explicit). -/
def step (useColors : Bool) (st : RenderState) : Event → Option RenderState
  | .Start .Paragraph => some { st with context := ensure_blank_line st.context }
  | .Start (.Heading _) =>
      some { st with context := { ensure_newline st.context with pendingNewlines := 0 } }
  | .Start (.List startNum) =>
      some { st with listDepth := st.listDepth + 1,
                     listRenderer := some (ListRenderer.new startNum.isSome (st.listDepth + 1)) }
  | .Start .Item =>
      match st.listRenderer with
      | some r =>
          if st.listDepth = 0 then none
          else
            let p := ListRenderer.start_item r st.listDepth
            some { st with inListItem := true, listRenderer := some p.1,
                           context := { st.context with output := st.context.output ++ p.2 } }
      | none => some { st with inListItem := true }
  | .Start .CodeBlock => some { st with codeRenderer := some ⟨""⟩ }
  | .Start .BlockQuote =>
      some { st with blockquoteRenderer := some BlockquoteRenderer.new,
                     context := ensure_newline st.context }
  | .Start .Table =>
      some { st with tableRenderer := some TableRenderer.new,
                     context := ensure_newline st.context }
  | .Start .TableHead =>
      some { st with tableRenderer := st.tableRenderer.map TableRenderer.start_row }
  | .Start .TableRow =>
      some { st with tableRenderer := st.tableRenderer.map TableRenderer.start_row }
  | .Start .TableCell =>
      some { st with tableRenderer := st.tableRenderer.map TableRenderer.start_cell }
  | .Start .Emphasis =>
      some { st with context :=
        { st.context with formattingStack := st.context.formattingStack ++ [.Italic] } }
  | .Start .Strong =>
      some { st with context :=
        { st.context with formattingStack := st.context.formattingStack ++ [.Bold] } }
  | .Start .Link =>
      some { st with context :=
        { st.context with formattingStack := st.context.formattingStack ++ [.Link] } }
  | .Start .Other => some st
  | .End .Paragraph =>
      some { st with context := { push_newline st.context with pendingNewlines := 1 } }
  | .End (.Heading _) =>
      some { st with context :=
        { push_newline (push_newline st.context) with pendingNewlines := 2 } }
  | .End (.List _) =>
      if st.listDepth = 0 then none
      else if st.listDepth - 1 = 0 then
        some { st with listDepth := 0, listRenderer := none,
                       context := { push_newline st.context with pendingNewlines := 1 } }
      else some { st with listDepth := st.listDepth - 1 }
  | .End .Item =>
      some { st with inListItem := false,
                     context := { push_newline st.context with pendingNewlines := 1 } }
  | .End .CodeBlock =>
      let ctx1 :=
        match st.codeRenderer with
        | some r => push_str st.context (render_code_block r.buffer)
        | none => st.context
      some { st with codeRenderer := none,
                     context := { push_newline ctx1 with pendingNewlines := 1 } }
  | .End .BlockQuote =>
      let ctx1 :=
        match st.blockquoteRenderer with
        | some r => push_str st.context (BlockquoteRenderer.finish r)
        | none => st.context
      some { st with blockquoteRenderer := none,
                     context := { push_newline ctx1 with pendingNewlines := 1 } }
  | .End .Table =>
      let ctx1 :=
        match st.tableRenderer with
        | some r => push_str st.context (render_table r.rows)
        | none => st.context
      some { st with tableRenderer := none,
                     context := { push_newline ctx1 with pendingNewlines := 1 } }
  | .End .TableHead =>
      some { st with tableRenderer := st.tableRenderer.map TableRenderer.end_row }
  | .End .TableRow =>
      some { st with tableRenderer := st.tableRenderer.map TableRenderer.end_row }
  | .End .TableCell =>
      some { st with tableRenderer := st.tableRenderer.map TableRenderer.end_cell }
  | .End .Emphasis =>
      some { st with context :=
        { st.context with formattingStack := st.context.formattingStack.dropLast } }
  | .End .Strong =>
      some { st with context :=
        { st.context with formattingStack := st.context.formattingStack.dropLast } }
  | .End .Link =>
      some { st with context :=
        { st.context with formattingStack := st.context.formattingStack.dropLast } }
  | .End .Other => some st
  | .Text s =>
      match st.codeRenderer with
      | some r => some { st with codeRenderer := some ⟨r.buffer ++ s⟩ }
      | none =>
        match st.tableRenderer with
        | some r => some { st with tableRenderer := some { r with currentCell := r.currentCell ++ s } }
        | none =>
          match st.blockquoteRenderer with
          | some r =>
              some { st with blockquoteRenderer := some { r with currentLine := r.currentLine ++ s } }
          | none =>
              some { st with context :=
                (push_str st.context (render_text useColors s st.context.formattingStack)) }
  | .SoftBreak =>
      match st.codeRenderer with
      | some r => some { st with codeRenderer := some ⟨r.buffer ++ "\n"⟩ }
      | none =>
        match st.tableRenderer with
        | some r => some { st with tableRenderer := some { r with currentCell := r.currentCell ++ " " } }
        | none =>
          match st.blockquoteRenderer with
          | some r => some { st with blockquoteRenderer := some r.flush_line }
          | none => some { st with context := push_str st.context " " }
  | .HardBreak =>
      match st.codeRenderer with
      | some r => some { st with codeRenderer := some ⟨r.buffer ++ "\n"⟩ }
      | none =>
        match st.tableRenderer with
        | some r => some { st with tableRenderer := some { r with currentCell := r.currentCell ++ "\n" } }
        | none =>
          match st.blockquoteRenderer with
          | some r => some { st with blockquoteRenderer := some r.flush_line }
          | none =>
            let ctx := push_newline st.context
            let ctx :=
              if st.inListItem ∧ 0 < st.listDepth then
                push_str (pushIndent ctx (st.listDepth - 1)) "  "
              else ctx
            some { st with context := ctx }
  | .Html _ => some st
  | .Code c =>
      some { st with context := push_str st.context (render_inline_code useColors c) }
  | .TaskListMarker checked =>
      some { st with context := push_str st.context (if checked then "☑ " else "☐ ") }
  | .Other => some st

/-- Folding the driver over an event sequence. -/
def runEvents (useColors : Bool) (events : List Event) : Option RenderState :=
  events.foldlM (fun st e => step useColors st e) (initState useColors)

/-- Full rendering of an event sequence, finished by `into_output`. -/
def renderEvents (useColors : Bool) (events : List Event) : Option String :=
  (runEvents useColors events).map (fun st => into_output st.context)

/-- `MarkdownRenderer::has_markdown_syntax`: the trigger-character scan
of the fast path. -/
def has_markdown_syntax (text : String) : Bool :=
  strContainsSub text "**" || strContainsSub text "*" || strContainsSub text "`" ||
  strContainsSub text "#" || strContainsSub text "[" || strContainsSub text "- " ||
  strContainsSub text "1. " || strContainsSub text "\n"

/-- `MarkdownRenderer::render`: the fast path returns the input verbatim
when no trigger character is found; otherwise the external parser's event
sequence is driven through the state machine. -/
def render (useColors : Bool) (parseMarkdown : String → List Event) (markdown : String) :
    Option String :=
  if has_markdown_syntax markdown = false then some markdown
  else renderEvents useColors (parseMarkdown markdown)

/-- Modelled from the spec: the external commonmark parser (pulldown_cmark,
outside src/) applied to plain text that contains no markdown trigger
character and no newline yields a single paragraph — block start, one
text run, block end; the empty input yields no events. -/
def parsePlain (s : String) : List Event :=
  if s = "" then [] else [.Start .Paragraph, .Text s, .End .Paragraph]

/-! ## Auxiliary predicates for the theorems -/

/-- An event whose text payloads are free of the escape character. -/
def eventNoEsc : Event → Prop
  | .Text s => noEsc s
  | .Code s => noEsc s
  | _ => True

instance (e : Event) : Decidable (eventNoEsc e) := by
  cases e <;> (unfold eventNoEsc; infer_instance)

/-- Every string held anywhere in the driver state is free of the escape
character. -/
structure StateNoEsc (st : RenderState) : Prop where
  out : noEsc st.context.output
  code : ∀ r, st.codeRenderer = some r → noEsc r.buffer
  tableRows : ∀ r, st.tableRenderer = some r → ∀ row ∈ r.rows, ∀ c ∈ row, noEsc c
  tableRow : ∀ r, st.tableRenderer = some r → ∀ c ∈ r.currentRow, noEsc c
  tableCell : ∀ r, st.tableRenderer = some r → noEsc r.currentCell
  bqLines : ∀ r, st.blockquoteRenderer = some r → ∀ l ∈ r.lines, noEsc l
  bqLine : ∀ r, st.blockquoteRenderer = some r → noEsc r.currentLine

/-- The operations through which the render context's own interface
mutates the buffer. -/
inductive CtxOp where
  | push (s : String)
  | newline
  | ensureNl
  | ensureBlank
deriving Repr

def applyOp (ctx : RenderContext) : CtxOp → RenderContext
  | .push s => push_str ctx s
  | .newline => push_newline ctx
  | .ensureNl => ensure_newline ctx
  | .ensureBlank => ensure_blank_line ctx

def applyOps (ctx : RenderContext) (ops : List CtxOp) : RenderContext :=
  ops.foldl applyOp ctx

/-- A non-newline write: `push_str` with a non-empty, newline-free string. -/
def opOk : CtxOp → Prop
  | .push s => s ≠ "" ∧ '\n' ∉ s.data
  | _ => True

instance (op : CtxOp) : Decidable (opOk op) := by
  cases op <;> (unfold opOk; infer_instance)

/-- The pending-newline counter agrees with the buffer's trailing-newline
count up to the conceptual clamp at 2. -/
def ctxSync (ctx : RenderContext) : Prop :=
  min 2 ctx.pendingNewlines = min 2 (trailingNewlines ctx.output)

instance (ctx : RenderContext) : Decidable (ctxSync ctx) := by
  unfold ctxSync; infer_instance

/-- An ordered list with two items, a nested unordered list, and a third
item of the outer list after the inner list has closed. -/
def c7events : List Event :=
  [.Start (.List (some 1)), .Start .Item, .Text "a", .End .Item,
   .Start .Item, .Text "b", .End .Item,
   .Start (.List none), .Start .Item, .Text "c", .End .Item, .End (.List none),
   .Start .Item, .Text "d", .End .Item, .End (.List (some 1))]

/-! ## Claim theorems -/

/-- C1: the claim that the driver never panics and treats a block-end
event with no active renderer as a no-op fails on the code: an
`End(List)` with no open list underflows the `usize` depth counter
(modelled by `none`, the panicking outcome), and an `End(CodeBlock)` with
no active code renderer still appends a newline to the output buffer
instead of leaving the state unchanged. -/
theorem c1_unmatched_end_underflows_or_writes :
    step false (initState false) (.End (.List none)) = none ∧
    (step false (initState false) (.End .CodeBlock)).map (fun st => st.context.output) =
      some "\n" ∧
    (initState false).context.output = "" := by
  refine ⟨by decide, by decide, by decide⟩

/-- C2: the fast path returns a trigger-free input verbatim, but full
rendering of the same plain text (external parser modelled from the spec)
appends a terminating newline, so the two outputs are not byte-identical. -/
theorem c2_fast_path_not_byte_identical :
    (∀ parseMarkdown : String → List Event,
        render false parseMarkdown "hello" = some "hello") ∧
    renderEvents false (parsePlain "hello") = some "hello\n" ∧
    ("hello" : String) ≠ "hello\n" := by
  refine ⟨fun parseMarkdown => ?_, by decide, by decide⟩
  have h : has_markdown_syntax "hello" = false := by decide
  simp [render, h]

/-- C3: the claim that every render output is trailing-trimmed with
exactly one terminating newline fails on the code: the fast path returns
the trigger-free input "hello" verbatim, without any newline. -/
theorem c3_fast_path_output_lacks_newline :
    (∀ parseMarkdown : String → List Event,
        render false parseMarkdown "hello" = some "hello") ∧
    strEndsWith "hello" "\n" = false := by
  refine ⟨fun parseMarkdown => ?_, by decide⟩
  have h : has_markdown_syntax "hello" = false := by decide
  simp [render, h]

/-- C4 counterexample: with colors disabled, a text run that already
contains the escape character passes through to the output, so the
rendered output is not free of ANSI escape sequences as the claim states
for every input. -/
theorem c4_counterexample_escape_passes_through :
    renderEvents false
        [.Start .Paragraph, .Text (String.mk [escChar, '[', '1', 'm']), .End .Paragraph] =
      some (String.mk [escChar, '[', '1', 'm', '\n']) ∧
    containsEsc (String.mk [escChar, '[', '1', 'm', '\n']) = true := by
  refine ⟨by decide, by decide⟩

/-- C6 counterexample: in a reachable driver state the pending-newline
counter disagrees with the buffer's trailing-newline count even under the
clamp at 2: after a second list-item marker is written directly into the
buffer, the buffer ends with no newline while the counter still holds 1. -/
theorem c6_counterexample_marker_bypasses_counter :
    (runEvents false [.Start (.List none), .Start .Item, .Text "a", .End .Item,
        .Start .Item]).map
      (fun st => (st.context.output, st.context.pendingNewlines,
                  trailingNewlines st.context.output)) =
      some ("• a\n• ", 1, 0) ∧
    min 2 1 ≠ min 2 0 := by
  refine ⟨by decide, by decide⟩

/-- C7 counterexample: after a nested unordered list closes, the third
item of the enclosing ordered list is rendered with the inner renderer's
bullet, not with the enclosing list's next ordinal "3. " — the enclosing
list's counters are not preserved. -/
theorem c7_counterexample_inner_renderer_survives :
    renderEvents false c7events = some "1. a\n2. b\n  • c\n• d\n" ∧
    strContainsSub "1. a\n2. b\n  • c\n• d\n" "3. " = false ∧
    (runEvents false [.Start (.List (some 1)), .Start (.List none), .End (.List none)]).map
        (fun st => st.listRenderer) =
      some (some { depth := 2, isOrdered := false, itemIndices := [], inItem := false,
                   buffer := "" }) := by
  refine ⟨by decide, by decide, by decide⟩

/-- C10: an inline-code event is never routed to the active block
renderer's accumulator: in every driver state it appends the rendered
inline code directly to the shared output buffer and leaves every
renderer (and all other driver fields) unchanged; concretely, inline code
inside a table contributes nothing to the table's cells or widths. -/
theorem c10_inline_code_bypasses_renderers :
    (∀ (useColors : Bool) (st : RenderState) (c : String),
        step useColors st (.Code c) =
          some { st with context := push_str st.context (render_inline_code useColors c) }) ∧
    (runEvents false [.Start .Table, .Start .TableHead, .Start .TableCell, .Code "x",
        .Text "ab", .End .TableCell, .End .TableHead]).map
      (fun st => (st.tableRenderer.map (fun t => t.rows), st.context.output)) =
      some (some [["ab"]], "x") ∧
    renderEvents false [.Start .Table, .Start .TableHead, .Start .TableCell, .Code "x",
        .Text "ab", .End .TableCell, .End .TableHead, .End .Table] =
      some "x┌────┐\n│ ab │\n└────┘\n" := by
  refine ⟨fun useColors st c => rfl, by decide, by decide⟩

/-! ## Lemmas about `ensure_blank_line` (claim C8) -/

theorem strEndsWith_true_iff {s p : String} : strEndsWith s p = true ↔ p.data <:+ s.data := by
  simp [strEndsWith]

theorem append_newline_pair (s : String) : (s ++ "\n") ++ "\n" = s ++ "\n\n" := by
  apply String.ext
  rw [String.data_append, String.data_append, String.data_append,
    show ("\n" : String).data = ['\n'] from rfl,
    show ("\n\n" : String).data = ['\n', '\n'] from rfl]
  simp

theorem strEndsWith_push_push (s : String) :
    strEndsWith ((s ++ "\n") ++ "\n") "\n\n" = true := by
  rw [strEndsWith_true_iff, String.data_append, String.data_append,
    show ("\n" : String).data = ['\n'] from rfl,
    show ("\n\n" : String).data = ['\n', '\n'] from rfl]
  exact ⟨s.data, by simp⟩

theorem strEndsWith_newline_lift {s : String} (h : strEndsWith s "\n" = true) :
    strEndsWith (s ++ "\n") "\n\n" = true := by
  rw [strEndsWith_true_iff] at h ⊢
  obtain ⟨t, ht⟩ := h
  refine ⟨t, ?_⟩
  rw [String.data_append, show ("\n" : String).data = ['\n'] from rfl,
    show ("\n\n" : String).data = ['\n', '\n'] from rfl, ← ht]
  simp

theorem ebl_eq_push {ctx : RenderContext}
    (h : ctx.output ≠ "" ∧ ¬ strEndsWith ctx.output "\n\n" ∧ ctx.pendingNewlines < 2) :
    ensure_blank_line ctx = push_newline ctx := by
  unfold ensure_blank_line
  exact if_pos h

theorem ebl_eq_self {ctx : RenderContext}
    (h : ¬ (ctx.output ≠ "" ∧ ¬ strEndsWith ctx.output "\n\n" ∧ ctx.pendingNewlines < 2)) :
    ensure_blank_line ctx = ctx := by
  unfold ensure_blank_line
  exact if_neg h

theorem ebl_fix2 (ctx : RenderContext) :
    ensure_blank_line (ensure_blank_line (ensure_blank_line ctx)) =
      ensure_blank_line (ensure_blank_line ctx) := by
  by_cases h1 : ctx.output ≠ "" ∧ ¬ strEndsWith ctx.output "\n\n" ∧ ctx.pendingNewlines < 2
  · rw [ebl_eq_push h1]
    by_cases h2 : (push_newline ctx).output ≠ "" ∧
        ¬ strEndsWith (push_newline ctx).output "\n\n" ∧
        (push_newline ctx).pendingNewlines < 2
    · rw [ebl_eq_push h2]
      apply ebl_eq_self
      intro h3
      exact h3.2.1 (strEndsWith_push_push ctx.output)
    · rw [ebl_eq_self h2, ebl_eq_self h2]
  · rw [ebl_eq_self h1, ebl_eq_self h1, ebl_eq_self h1]

/-- C8: blank-line insertion is idempotent: from the third call on,
consecutive `ensure_blank_line` calls change nothing; two consecutive
calls append at most two newline characters — and at most one when the
buffer already ends in a newline — so at most one blank line is ever
inserted; and a call on a buffer that already ends with two newlines, or
whose pending-newline counter is at least 2, changes nothing. -/
theorem c8_ensure_blank_line_idempotent :
    (∀ (ctx : RenderContext) (n : Nat),
        ensure_blank_line^[n + 2] ctx = ensure_blank_line^[2] ctx) ∧
    (∀ ctx : RenderContext, ∃ k, k ≤ 2 ∧
        (ensure_blank_line (ensure_blank_line ctx)).output =
          ctx.output ++ strRepeat "\n" k ∧
        (strEndsWith ctx.output "\n" = true → k ≤ 1)) ∧
    (∀ ctx : RenderContext,
        strEndsWith ctx.output "\n\n" = true ∨ 2 ≤ ctx.pendingNewlines →
        ensure_blank_line ctx = ctx) := by
  refine ⟨?_, ?_, ?_⟩
  · intro ctx n
    induction n with
    | zero => rfl
    | succ n ih =>
        have h1 : ensure_blank_line^[n + 1 + 2] ctx =
            ensure_blank_line (ensure_blank_line^[n + 2] ctx) :=
          Function.iterate_succ_apply' ensure_blank_line (n + 2) ctx
        rw [h1, ih]
        have h2 : ensure_blank_line^[2] ctx = ensure_blank_line (ensure_blank_line ctx) := rfl
        rw [h2]
        exact ebl_fix2 ctx
  · intro ctx
    by_cases h1 : ctx.output ≠ "" ∧ ¬ strEndsWith ctx.output "\n\n" ∧ ctx.pendingNewlines < 2
    · rw [ebl_eq_push h1]
      by_cases h2 : (push_newline ctx).output ≠ "" ∧
          ¬ strEndsWith (push_newline ctx).output "\n\n" ∧
          (push_newline ctx).pendingNewlines < 2
      · refine ⟨2, le_refl 2, ?_, ?_⟩
        · rw [ebl_eq_push h2]
          show (ctx.output ++ "\n") ++ "\n" = ctx.output ++ strRepeat "\n" 2
          rw [append_newline_pair, show strRepeat "\n" 2 = "\n\n" from rfl]
        · intro hend
          exact absurd (strEndsWith_newline_lift hend) (fun hc => h2.2.1 hc)
      · refine ⟨1, by omega, ?_, fun _ => le_refl 1⟩
        rw [ebl_eq_self h2]
        show ctx.output ++ "\n" = ctx.output ++ strRepeat "\n" 1
        rw [show strRepeat "\n" 1 = "\n" from rfl]
    · refine ⟨0, by omega, ?_, fun _ => by omega⟩
      rw [ebl_eq_self h1, ebl_eq_self h1,
        show strRepeat "\n" 0 = "" from rfl, String.append_empty]
  · intro ctx h
    apply ebl_eq_self
    intro h3
    rcases h with h | h
    · exact h3.2.1 h
    · omega

/-- C8 witness: the theorem applied at a concrete render context whose
buffer already ends with two newlines. -/
theorem c8_witness :
    ensure_blank_line ⟨"x\n\n", [], 0, false⟩ = ⟨"x\n\n", [], 0, false⟩ :=
  c8_ensure_blank_line_idempotent.2.2 ⟨"x\n\n", [], 0, false⟩ (Or.inl (by decide))

/-! ## Lemmas about the pending-newline counter (claim C6) -/

theorem ne_empty_data {s : String} (h : s ≠ "") : s.data ≠ [] := by
  intro hd
  exact h (String.ext hd)

theorem trailingNewlines_append_solid {a s : String} (hne : s ≠ "") (hnn : '\n' ∉ s.data) :
    trailingNewlines (a ++ s) = 0 := by
  unfold trailingNewlines
  rw [String.data_append, List.reverse_append]
  rcases hr : s.data.reverse with _ | ⟨c, rest⟩
  · exact absurd (by simpa using hr) (ne_empty_data hne)
  · have hc : c ∈ s.data := by
      rw [← List.mem_reverse, hr]; exact List.mem_cons_self c rest
    have : ¬ (c = '\n') := fun h => hnn (h ▸ hc)
    simp [List.takeWhile, this]

theorem trailingNewlines_append_newline (s : String) :
    trailingNewlines (s ++ "\n") = trailingNewlines s + 1 := by
  unfold trailingNewlines
  rw [String.data_append, show ("\n" : String).data = ['\n'] from rfl, List.reverse_append]
  simp [List.takeWhile]

theorem ctxSync_push_newline {ctx : RenderContext} (h : ctxSync ctx) :
    ctxSync (push_newline ctx) := by
  unfold ctxSync at h ⊢
  show min 2 (ctx.pendingNewlines + 1) = min 2 (trailingNewlines (ctx.output ++ "\n"))
  rw [trailingNewlines_append_newline]
  rw [Nat.min_def, Nat.min_def] at h ⊢
  split_ifs at h ⊢ <;> omega

theorem ctxSync_applyOp {ctx : RenderContext} {op : CtxOp} (h : ctxSync ctx) (hop : opOk op) :
    ctxSync (applyOp ctx op) := by
  cases op with
  | push s =>
      obtain ⟨hne, hnn⟩ := hop
      show ctxSync (push_str ctx s)
      unfold ctxSync
      show min 2 0 = min 2 (trailingNewlines (ctx.output ++ s))
      rw [trailingNewlines_append_solid hne hnn]
  | newline => exact ctxSync_push_newline h
  | ensureNl =>
      show ctxSync (ensure_newline ctx)
      unfold ensure_newline
      split
      · exact ctxSync_push_newline h
      · exact h
  | ensureBlank =>
      show ctxSync (ensure_blank_line ctx)
      unfold ensure_blank_line
      split
      · exact ctxSync_push_newline h
      · exact h

/-- C6 amended theorem: the counter is reset by every `push_str` and
incremented by every `push_newline`, and along any sequence of the render
context's own operations (with non-empty, newline-free appends) the
counter agrees with the buffer's trailing-newline count up to the clamp
at 2.  (The driver itself breaks this correspondence by writing list-item
markers directly into the buffer, see the counterexample.) -/
theorem c6_context_ops_keep_counter_synced :
    (∀ (ctx : RenderContext) (s : String), (push_str ctx s).pendingNewlines = 0) ∧
    (∀ ctx : RenderContext, (push_newline ctx).pendingNewlines = ctx.pendingNewlines + 1) ∧
    (∀ (ctx : RenderContext) (ops : List CtxOp), ctxSync ctx →
        (∀ op ∈ ops, opOk op) → ctxSync (applyOps ctx ops)) := by
  refine ⟨fun ctx s => rfl, fun ctx => rfl, ?_⟩
  intro ctx ops
  induction ops generalizing ctx with
  | nil => exact fun h _ => h
  | cons op ops ih =>
      intro h hops
      exact ih (applyOp ctx op) (ctxSync_applyOp h (hops op (List.mem_cons_self op ops)))
        (fun o ho => hops o (List.mem_cons_of_mem op ho))

/-- C6 witness: the synchronisation theorem applied to a concrete
operation sequence from the empty context. -/
theorem c6_witness :
    ctxSync (applyOps (RenderContext.new false) [CtxOp.push "a", CtxOp.newline]) :=
  c6_context_ops_keep_counter_synced.2.2 (RenderContext.new false)
    [CtxOp.push "a", CtxOp.newline] (by decide) (by decide)

/-! ## Claim C7: list nesting -/

/-- C7 amended theorem: every list-open event increments the shared depth
counter but installs a fresh List Renderer — with the single counter
stack `[0]` for ordered lists and an empty one otherwise — replacing any
enclosing list's renderer; a list-close at depth at least 2 only
decrements the depth and keeps the inner renderer installed, so after an
inner list closes the next item of the enclosing list continues with the
inner renderer's counter and kind (concretely, with a bullet rather than
the enclosing ordinal). -/
theorem c7_list_open_replaces_renderer :
    (∀ (st : RenderState) (num : Option Nat),
        step false st (.Start (.List num)) =
          some { st with listDepth := st.listDepth + 1,
                         listRenderer := some (ListRenderer.new num.isSome (st.listDepth + 1)) }) ∧
    (∀ (st : RenderState) (t : Option Nat), 2 ≤ st.listDepth →
        step false st (.End (.List t)) = some { st with listDepth := st.listDepth - 1 }) ∧
    (runEvents false [.Start (.List (some 1)), .Start .Item, .Text "a", .End .Item,
        .Start .Item, .Text "b", .End .Item,
        .Start (.List none), .Start .Item, .Text "c", .End .Item, .End (.List none),
        .Start .Item]).map (fun st => st.context.output) =
      some "1. a\n2. b\n  • c\n• " := by
  refine ⟨fun st num => rfl, ?_, by decide⟩
  intro st t h
  simp only [step]
  rw [if_neg (by omega), if_neg (by omega)]

/-- C7 witness: the list-close conjunct applied at a concrete state with
depth 2. -/
theorem c7_witness :
    step false ⟨RenderContext.new false, none, none, none, 2,
        some (ListRenderer.new false 2), false⟩ (.End (.List none)) =
      some ⟨RenderContext.new false, none, none, none, 1,
        some (ListRenderer.new false 2), false⟩ :=
  c7_list_open_replaces_renderer.2.1
    ⟨RenderContext.new false, none, none, none, 2, some (ListRenderer.new false 2), false⟩
    none (by decide)

/-! ## Folded maxima, padding lengths and character counts -/

theorem foldl_max_init_le (l : List Nat) (a : Nat) : a ≤ l.foldl Nat.max a := by
  induction l generalizing a with
  | nil => exact le_refl a
  | cons x xs ih => exact le_trans (le_max_left a x) (ih (Nat.max a x))

theorem le_foldl_max {x : Nat} (l : List Nat) (h : x ∈ l) (a : Nat) :
    x ≤ l.foldl Nat.max a := by
  induction l generalizing a with
  | nil => cases h
  | cons y ys ih =>
      rcases List.mem_cons.mp h with rfl | hm
      · exact le_trans (le_max_right a x) (foldl_max_init_le ys (Nat.max a x))
      · exact ih hm (Nat.max a y)

theorem strRepeat_succ (s : String) (n : Nat) :
    strRepeat s (n + 1) = s ++ strRepeat s n := rfl

theorem strRepeat_space_length (n : Nat) : (strRepeat " " n).length = n := by
  induction n with
  | zero => rfl
  | succ n ih =>
      rw [strRepeat_succ, String.length_append, ih,
        show (" " : String).length = 1 from rfl]
      omega

theorem padRight_length {s : String} {w : Nat} (h : s.length ≤ w) :
    (padRight s w).length = w := by
  unfold padRight
  rw [String.length_append, strRepeat_space_length]
  omega

theorem countCharS_append (c : Char) (a b : String) :
    countCharS c (a ++ b) = countCharS c a + countCharS c b := by
  unfold countCharS
  rw [String.data_append, List.count_append]

theorem countCharS_eq_zero_iff {c : Char} {s : String} :
    countCharS c s = 0 ↔ c ∉ s.data := List.count_eq_zero

theorem countCharS_strRepeat (c : Char) (s : String) (n : Nat) :
    countCharS c (strRepeat s n) = n * countCharS c s := by
  induction n with
  | zero => rw [Nat.zero_mul]; rfl
  | succ n ih =>
      rw [strRepeat_succ, countCharS_append, ih]
      ring

theorem countCharS_strConcat (c : Char) (ls : List String) :
    countCharS c (strConcat ls) = (ls.map (countCharS c)).sum := by
  induction ls with
  | nil => rfl
  | cons s ss ih =>
      show countCharS c (s ++ strConcat ss) = countCharS c s + (ss.map (countCharS c)).sum
      rw [countCharS_append, ih]

theorem countCharS_joinSep_zero {c : Char} {sep : String} {ls : List String}
    (hsep : countCharS c sep = 0) (hls : ∀ s ∈ ls, countCharS c s = 0) :
    countCharS c (joinSep sep ls) = 0 := by
  induction ls with
  | nil => rfl
  | cons s ss ih =>
      cases ss with
      | nil => exact hls s (List.mem_singleton.mpr rfl)
      | cons s2 ss2 =>
          show countCharS c (s ++ sep ++ joinSep sep (s2 :: ss2)) = 0
          rw [countCharS_append, countCharS_append,
            hls s (List.mem_cons_self s (s2 :: ss2)), hsep,
            ih (fun x hx => hls x (List.mem_cons_of_mem s hx))]

theorem countCharS_padRight_zero {c : Char} {s : String} {w : Nat}
    (hc : c ≠ ' ') (h : countCharS c s = 0) : countCharS c (padRight s w) = 0 := by
  unfold padRight
  rw [countCharS_append, h, countCharS_strRepeat]
  have hsp : countCharS c " " = 0 := by
    rw [countCharS_eq_zero_iff]
    intro hm
    rw [show (" " : String).data = [' '] from rfl] at hm
    exact hc (List.mem_singleton.mp hm)
  rw [hsp]
  omega

/-! ## Substring provenance of `rustLines` -/

theorem splitNewlines_subset :
    ∀ (cs acc part : List Char), part ∈ splitNewlines cs acc →
      ∀ c ∈ part, c ∈ cs ∨ c ∈ acc := by
  intro cs
  induction cs with
  | nil =>
      intro acc part hpart c hc
      rcases List.mem_singleton.mp hpart with rfl
      exact Or.inr (List.mem_reverse.mp hc)
  | cons c0 cs ih =>
      intro acc part hpart c hc
      by_cases h0 : c0 = '\n'
      · rw [show splitNewlines (c0 :: cs) acc =
            acc.reverse :: splitNewlines cs [] from by simp [splitNewlines, h0]] at hpart
        rcases List.mem_cons.mp hpart with rfl | hmem
        · exact Or.inr (List.mem_reverse.mp hc)
        · rcases ih [] part hmem c hc with h | h
          · exact Or.inl (List.mem_cons_of_mem c0 h)
          · cases h
      · rw [show splitNewlines (c0 :: cs) acc = splitNewlines cs (c0 :: acc) from by
            simp [splitNewlines, h0]] at hpart
        rcases ih (c0 :: acc) part hpart c hc with h | h
        · exact Or.inl (List.mem_cons_of_mem c0 h)
        · rcases List.mem_cons.mp h with rfl | h
          · exact Or.inl (List.mem_cons_self c cs)
          · exact Or.inr h

theorem stripCR_subset (l : List Char) : ∀ c ∈ stripCR l, c ∈ l := by
  unfold stripCR
  split
  · exact fun c hc => (List.dropLast_sublist l).subset hc
  · exact fun c hc => hc

theorem rustLines_subset {s line : String} (h : line ∈ rustLines s) :
    ∀ c ∈ line.data, c ∈ s.data := by
  intro c hc
  unfold rustLines at h
  split at h
  · cases h
  · obtain ⟨part, hpart, hline⟩ := List.mem_map.mp h
    have hc2 : c ∈ stripCR part := by
      rw [← hline] at hc
      exact hc
    have hc3 : c ∈ part := stripCR_subset part c hc2
    have hpart2 : part ∈ splitNewlines s.data [] := by
      rcases hd : (decide (s.data.getLast? = some '\n')) with _ | _
      · rw [show (if s.data.getLast? = some '\n' then
              (splitNewlines s.data []).dropLast else splitNewlines s.data []) =
            splitNewlines s.data [] from if_neg (by simpa using hd)] at hpart
        exact hpart
      · rw [show (if s.data.getLast? = some '\n' then
              (splitNewlines s.data []).dropLast else splitNewlines s.data []) =
            (splitNewlines s.data []).dropLast from if_pos (by simpa using hd)] at hpart
        exact (List.dropLast_sublist (splitNewlines s.data [])).subset hpart
    rcases splitNewlines_subset s.data [] part hpart2 c hc3 with h | h
    · exact h
    · cases h

/-! ## Claim C9: code block layout -/

/-- C9: on code-block end, an empty line list renders as the empty
string; every content line is space-padded to exactly the longest line
length; the horizontal borders consist of `max_len + 2` box-drawing
dashes each (so a buffer free of that glyph renders with exactly
`2 * (max_len + 2)` of them); and for the lines `["ab", "c"]` the short
line renders padded as `"c "`, not unpadded. -/
theorem c9_code_block_layout :
    (∀ code, rustLines code = [] → render_code_block code = "") ∧
    (∀ code line, line ∈ rustLines code →
        (padRight line (cbMaxLen (rustLines code))).length = cbMaxLen (rustLines code)) ∧
    (∀ code, rustLines code ≠ [] → countCharS '─' code = 0 →
        countCharS '─' (render_code_block code) = 2 * (cbMaxLen (rustLines code) + 2)) ∧
    render_code_block "ab\nc" = "┌────┐\n│ ab │\n│ c  │\n└────┘" ∧
    padRight "c" 2 = "c " := by
  refine ⟨?_, ?_, ?_, by decide, by decide⟩
  · intro code h
    simp [render_code_block, h]
  · intro code line h
    exact padRight_length (le_foldl_max _ (List.mem_map_of_mem String.length h) 0)
  · intro code hne hzero
    have hlines : ∀ line ∈ rustLines code, countCharS '─' line = 0 := by
      intro line hl
      rw [countCharS_eq_zero_iff]
      intro hm
      exact (countCharS_eq_zero_iff.mp hzero) (rustLines_subset hl _ hm)
    simp only [render_code_block]
    rw [if_neg hne]
    rw [countCharS_append, countCharS_append, countCharS_append, countCharS_append,
      countCharS_append, countCharS_append]
    rw [countCharS_strRepeat,
      show countCharS '─' "─" = 1 from by decide,
      show countCharS '─' "┌" = 0 from by decide,
      show countCharS '─' "┐\n" = 0 from by decide,
      show countCharS '─' "└" = 0 from by decide,
      show countCharS '─' "┘" = 0 from by decide]
    have hmid : countCharS '─'
        (strConcat ((rustLines code).map
          (fun line => "│" ++ " " ++ padRight line (cbMaxLen (rustLines code)) ++ " " ++ "│\n"))) =
        0 := by
      rw [countCharS_strConcat, List.map_map]
      apply List.sum_eq_zero
      intro x hx
      obtain ⟨line, hline, hxeq⟩ := List.mem_map.mp hx
      rw [← hxeq]
      show countCharS '─'
        ("│" ++ " " ++ padRight line (cbMaxLen (rustLines code)) ++ " " ++ "│\n") = 0
      rw [countCharS_append, countCharS_append, countCharS_append, countCharS_append,
        show countCharS '─' "│" = 0 from by decide,
        show countCharS '─' " " = 0 from by decide,
        show countCharS '─' "│\n" = 0 from by decide,
        countCharS_padRight_zero (by decide) (hlines line hline)]
    rw [hmid]
    omega

/-- C9 witness: each conjunct of the layout theorem instantiated at a
concrete code-block buffer. -/
theorem c9_witness :
    render_code_block "" = "" ∧
    (padRight "c" (cbMaxLen (rustLines "ab\nc"))).length = cbMaxLen (rustLines "ab\nc") ∧
    countCharS '─' (render_code_block "ab\nc") = 2 * (cbMaxLen (rustLines "ab\nc") + 2) :=
  ⟨c9_code_block_layout.1 "" (by decide),
   c9_code_block_layout.2.1 "ab\nc" "c" (by decide),
   c9_code_block_layout.2.2.1 "ab\nc" (by decide) (by decide)⟩

/-! ## Claim C5: table layout -/

theorem updateWidths_length : ∀ (ws : List Nat) (row : List String),
    row.length ≤ ws.length → (updateWidths ws row).length = ws.length := by
  intro ws
  induction ws with
  | nil =>
      intro row h
      cases row with
      | nil => rfl
      | cons c cs => simp at h
  | cons w ws ih =>
      intro row h
      cases row with
      | nil => rfl
      | cons c cs =>
          show (Nat.max w c.length :: updateWidths ws cs).length = (w :: ws).length
          rw [List.length_cons, List.length_cons, ih cs (by simpa using h)]

theorem updateWidths_getD : ∀ (ws : List Nat) (row : List String) (i : Nat),
    row.length ≤ ws.length →
    (updateWidths ws row).getD i 0 = Nat.max (ws.getD i 0) ((row.getD i "").length) := by
  intro ws
  induction ws with
  | nil =>
      intro row i h
      cases row with
      | nil =>
          show (List.getD [] i 0) = Nat.max (List.getD [] i 0) ((List.getD [] i "").length)
          simp
      | cons c cs => simp at h
  | cons w ws ih =>
      intro row i h
      cases row with
      | nil =>
          show ((w :: ws).getD i 0) = Nat.max ((w :: ws).getD i 0) ((List.getD [] i "").length)
          simp
      | cons c cs =>
          cases i with
          | zero =>
              show Nat.max w c.length = Nat.max ((w :: ws).getD 0 0) (((c :: cs).getD 0 "").length)
              rw [List.getD_cons_zero, List.getD_cons_zero]
          | succ i =>
              show (updateWidths ws cs).getD i 0 =
                Nat.max ((w :: ws).getD (i + 1) 0) (((c :: cs).getD (i + 1) "").length)
              rw [List.getD_cons_succ, List.getD_cons_succ, ih cs i (by simpa using h)]

theorem foldl_updateWidths_getD : ∀ (rows : List (List String)) (ws : List Nat) (i : Nat),
    (∀ r ∈ rows, r.length ≤ ws.length) →
    (rows.foldl updateWidths ws).getD i 0 =
      (rows.map (fun r => (r.getD i "").length)).foldl Nat.max (ws.getD i 0) := by
  intro rows
  induction rows with
  | nil => intro ws i _; rfl
  | cons r rows ih =>
      intro ws i h
      show ((rows.foldl updateWidths (updateWidths ws r)).getD i 0) =
        (rows.map (fun r => (r.getD i "").length)).foldl Nat.max
          (Nat.max (ws.getD i 0) ((r.getD i "").length))
      rw [← updateWidths_getD ws r i (h r (List.mem_cons_self r rows))]
      apply ih
      intro r2 hr2
      rw [updateWidths_length ws r (h r (List.mem_cons_self r rows))]
      exact h r2 (List.mem_cons_of_mem r hr2)

theorem getD_replicate_zero (n i : Nat) : (List.replicate n (0 : Nat)).getD i 0 = 0 := by
  rw [List.getD_eq_getElem?_getD, List.getElem?_replicate]
  split <;> rfl

theorem colWidths_getD (rows : List (List String)) (i : Nat) :
    (colWidths rows).getD i 0 =
      (rows.map (fun r => (r.getD i "").length)).foldl Nat.max 0 := by
  unfold colWidths
  rw [foldl_updateWidths_getD rows (List.replicate (tableNumCols rows) 0) i
    (fun r hr => by
      rw [List.length_replicate]
      exact le_foldl_max _ (List.mem_map_of_mem List.length hr) 0)]
  rw [getD_replicate_zero]

theorem countCharS_borderSegs_zero {c : Char} (hc : countCharS c "─" = 0) (ws : List Nat) :
    ∀ s ∈ borderSegs ws, countCharS c s = 0 := by
  intro s hs
  obtain ⟨w, _, rfl⟩ := List.mem_map.mp hs
  rw [countCharS_strRepeat, hc]
  omega

theorem countCharS_renderCells_sep_zero : ∀ (ws : List Nat) (row : List String),
    (∀ c ∈ row, countCharS '├' c = 0) → countCharS '├' (renderCells ws row) = 0 := by
  intro ws
  induction ws with
  | nil =>
      intro row h
      cases row with
      | nil => rfl
      | cons c cs => rfl
  | cons w ws ih =>
      intro row h
      cases row with
      | nil => rfl
      | cons c cs =>
          show countCharS '├' (" " ++ padRight c w ++ " " ++ "│" ++ renderCells ws cs) = 0
          rw [countCharS_append, countCharS_append, countCharS_append, countCharS_append,
            show countCharS '├' " " = 0 from by decide,
            show countCharS '├' "│" = 0 from by decide,
            countCharS_padRight_zero (by decide) (h c (List.mem_cons_self c cs)),
            ih cs (fun x hx => h x (List.mem_cons_of_mem c hx))]

theorem countCharS_sepLine (ws : List Nat) : countCharS '├' (sepLine ws) = 1 := by
  unfold sepLine
  rw [countCharS_append, countCharS_append,
    show countCharS '├' "├" = 1 from by decide,
    show countCharS '├' "┤\n" = 0 from by decide,
    countCharS_joinSep_zero (by decide) (countCharS_borderSegs_zero (by decide) ws)]

theorem countCharS_rowsSection : ∀ (ws : List Nat) (rows : List (List String)),
    (∀ row ∈ rows, ∀ c ∈ row, countCharS '├' c = 0) →
    countCharS '├' (rowsSection ws rows) = rows.length - 1 := by
  intro ws rows
  induction rows with
  | nil => intro _; rfl
  | cons r rs ih =>
      intro h
      cases rs with
      | nil =>
          show countCharS '├' ("│" ++ renderCells ws r ++ "\n") = 0
          rw [countCharS_append, countCharS_append,
            show countCharS '├' "│" = 0 from by decide,
            show countCharS '├' "\n" = 0 from by decide,
            countCharS_renderCells_sep_zero ws r (h r (List.mem_cons_self r []))]
      | cons r2 rs2 =>
          show countCharS '├'
            (renderRow ws r ++ sepLine ws ++ rowsSection ws (r2 :: rs2)) =
            (r :: r2 :: rs2).length - 1
          rw [countCharS_append, countCharS_append, countCharS_sepLine,
            ih (fun row hrow => h row (List.mem_cons_of_mem r hrow))]
          have hrr : countCharS '├' (renderRow ws r) = 0 := by
            show countCharS '├' ("│" ++ renderCells ws r ++ "\n") = 0
            rw [countCharS_append, countCharS_append,
              show countCharS '├' "│" = 0 from by decide,
              show countCharS '├' "\n" = 0 from by decide,
              countCharS_renderCells_sep_zero ws r (h r (List.mem_cons_self r (r2 :: rs2)))]
          rw [hrr]
          simp
          omega

/-- C5: the computed column width of every column equals the maximum
length of that column's cell over all rows (0 for absent cells); the
rendered table contains exactly one separator border line between every
pair of adjacent rows (counted by its unique junction glyph, assuming the
cells contain none); and for the rows
[["Name","Age"],["Alice","30"],["Bob","25"]] the widths are [5, 3], the
rendered grid is the expected box with exactly 2 separator lines. -/
theorem c5_table_layout :
    (∀ (rows : List (List String)) (i : Nat),
        (colWidths rows).getD i 0 =
          (rows.map (fun r => (r.getD i "").length)).foldl Nat.max 0) ∧
    (∀ rows : List (List String), rows ≠ [] →
        (∀ row ∈ rows, ∀ c ∈ row, countCharS '├' c = 0) →
        countCharS '├' (render_table rows) = rows.length - 1) ∧
    render_table [["Name", "Age"], ["Alice", "30"], ["Bob", "25"]] =
      "┌───────┬─────┐\n│ Name  │ Age │\n├───────┼─────┤\n│ Alice │ 30  │\n├───────┼─────┤\n│ Bob   │ 25  │\n└───────┴─────┘" ∧
    colWidths [["Name", "Age"], ["Alice", "30"], ["Bob", "25"]] = [5, 3] ∧
    countCharS '├' (render_table [["Name", "Age"], ["Alice", "30"], ["Bob", "25"]]) = 2 := by
  refine ⟨colWidths_getD, ?_, by decide, by decide, by decide⟩
  intro rows hne h
  simp only [render_table]
  rw [if_neg hne]
  rw [countCharS_append, countCharS_append, countCharS_append, countCharS_append,
    countCharS_append, countCharS_append,
    show countCharS '├' "┌" = 0 from by decide,
    show countCharS '├' "┐\n" = 0 from by decide,
    show countCharS '├' "└" = 0 from by decide,
    show countCharS '├' "┘" = 0 from by decide,
    countCharS_joinSep_zero (show countCharS '├' "┬" = 0 from by decide)
      (countCharS_borderSegs_zero (by decide) (colWidths rows)),
    countCharS_joinSep_zero (show countCharS '├' "┴" = 0 from by decide)
      (countCharS_borderSegs_zero (by decide) (colWidths rows)),
    countCharS_rowsSection (colWidths rows) rows h]
  omega

/-- C5 witness: the separator-count conjunct applied at the concrete
example table. -/
theorem c5_witness :
    countCharS '├' (render_table [["Name", "Age"], ["Alice", "30"], ["Bob", "25"]]) =
      [["Name", "Age"], ["Alice", "30"], ["Bob", "25"]].length - 1 :=
  c5_table_layout.2.1 [["Name", "Age"], ["Alice", "30"], ["Bob", "25"]]
    (by decide) (by decide)

/-! ## Escape-freedom lemmas (claim C4) -/

theorem noEsc_append {a b : String} : noEsc (a ++ b) ↔ noEsc a ∧ noEsc b := by
  unfold noEsc
  rw [String.data_append]
  simp [List.mem_append, not_or]

theorem noEsc_strConcat {ls : List String} (h : ∀ s ∈ ls, noEsc s) :
    noEsc (strConcat ls) := by
  induction ls with
  | nil => decide
  | cons s ss ih =>
      show noEsc (s ++ strConcat ss)
      exact noEsc_append.mpr ⟨h s (List.mem_cons_self s ss),
        ih (fun x hx => h x (List.mem_cons_of_mem s hx))⟩

theorem noEsc_joinSep {sep : String} {ls : List String} (hsep : noEsc sep)
    (h : ∀ s ∈ ls, noEsc s) : noEsc (joinSep sep ls) := by
  induction ls with
  | nil => exact (by decide : noEsc "")
  | cons s ss ih =>
      cases ss with
      | nil => exact h s (List.mem_singleton.mpr rfl)
      | cons s2 ss2 =>
          show noEsc (s ++ sep ++ joinSep sep (s2 :: ss2))
          exact noEsc_append.mpr
            ⟨noEsc_append.mpr ⟨h s (List.mem_cons_self s (s2 :: ss2)), hsep⟩,
             ih (fun x hx => h x (List.mem_cons_of_mem s hx))⟩

theorem noEsc_strRepeat {s : String} (h : noEsc s) (n : Nat) : noEsc (strRepeat s n) := by
  induction n with
  | zero => exact (by decide : noEsc "")
  | succ n ih =>
      rw [strRepeat_succ]
      exact noEsc_append.mpr ⟨h, ih⟩

theorem noEsc_padRight {s : String} (h : noEsc s) (w : Nat) : noEsc (padRight s w) :=
  noEsc_append.mpr ⟨h, noEsc_strRepeat (by decide) (w - s.length)⟩

theorem digitChar_ne_esc (m : Nat) : Nat.digitChar m ≠ escChar := by
  rcases Nat.lt_or_ge m 16 with h | h
  · interval_cases m <;> decide
  · unfold Nat.digitChar
    iterate 16 rw [if_neg (by omega)]
    decide

theorem toDigitsCore_no_esc : ∀ (fuel n : Nat) (ds : List Char),
    escChar ∉ ds → escChar ∉ Nat.toDigitsCore 10 fuel n ds := by
  intro fuel
  induction fuel with
  | zero => intro n ds h; exact h
  | succ fuel ih =>
      intro n ds h
      show escChar ∉ Nat.toDigitsCore 10 (fuel + 1) n ds
      rw [Nat.toDigitsCore]
      have hd : escChar ∉ Nat.digitChar (n % 10) :: ds := by
        intro hm
        rcases List.mem_cons.mp hm with hm | hm
        · exact digitChar_ne_esc (n % 10) hm.symm
        · exact h hm
      split
      · exact hd
      · exact ih (n / 10) (Nat.digitChar (n % 10) :: ds) hd

theorem noEsc_natRepr (n : Nat) : noEsc (Nat.repr n) := by
  show escChar ∉ (Nat.repr n).data
  have : (Nat.repr n).data = Nat.toDigits 10 n := rfl
  rw [this]
  exact toDigitsCore_no_esc (n + 1) n [] (by simp)

theorem noEsc_rustLines {s line : String} (hs : noEsc s) (h : line ∈ rustLines s) :
    noEsc line := by
  intro hm
  exact hs (rustLines_subset h escChar hm)

theorem noEsc_render_code_block {code : String} (h : noEsc code) :
    noEsc (render_code_block code) := by
  by_cases hl : rustLines code = []
  · have e : render_code_block code = "" := by simp [render_code_block, hl]
    rw [e]
    decide
  · simp only [render_code_block]
    rw [if_neg hl]
    simp only [noEsc_append]
    refine ⟨⟨⟨⟨⟨⟨by decide, noEsc_strRepeat (by decide) _⟩, by decide⟩, ?_⟩, by decide⟩,
      noEsc_strRepeat (by decide) _⟩, by decide⟩
    apply noEsc_strConcat
    intro x hx
    obtain ⟨line, hline, rfl⟩ := List.mem_map.mp hx
    simp only [noEsc_append]
    exact ⟨⟨⟨⟨by decide, by decide⟩, noEsc_padRight (noEsc_rustLines h hline) _⟩,
      by decide⟩, by decide⟩

theorem noEsc_renderCells {ws : List Nat} {row : List String}
    (h : ∀ c ∈ row, noEsc c) : noEsc (renderCells ws row) := by
  induction ws generalizing row with
  | nil =>
      cases row with
      | nil => exact (by decide : noEsc "")
      | cons c cs => exact (by decide : noEsc "")
  | cons w ws ih =>
      cases row with
      | nil => exact (by decide : noEsc "")
      | cons c cs =>
          show noEsc (" " ++ padRight c w ++ " " ++ "│" ++ renderCells ws cs)
          simp only [noEsc_append]
          exact ⟨⟨⟨⟨by decide, noEsc_padRight (h c (List.mem_cons_self c cs)) w⟩, by decide⟩,
            by decide⟩, ih (fun x hx => h x (List.mem_cons_of_mem c hx))⟩

theorem noEsc_renderRow {ws : List Nat} {row : List String}
    (h : ∀ c ∈ row, noEsc c) : noEsc (renderRow ws row) := by
  show noEsc ("│" ++ renderCells ws row ++ "\n")
  simp only [noEsc_append]
  exact ⟨⟨by decide, noEsc_renderCells h⟩, by decide⟩

theorem noEsc_borderSegs (ws : List Nat) : ∀ s ∈ borderSegs ws, noEsc s := by
  intro s hs
  obtain ⟨w, _, rfl⟩ := List.mem_map.mp hs
  exact noEsc_strRepeat (by decide) (w + 2)

theorem noEsc_sepLine (ws : List Nat) : noEsc (sepLine ws) := by
  show noEsc ("├" ++ joinSep "┼" (borderSegs ws) ++ "┤\n")
  simp only [noEsc_append]
  exact ⟨⟨by decide, noEsc_joinSep (by decide) (noEsc_borderSegs ws)⟩, by decide⟩

theorem noEsc_rowsSection {ws : List Nat} {rows : List (List String)}
    (h : ∀ row ∈ rows, ∀ c ∈ row, noEsc c) : noEsc (rowsSection ws rows) := by
  induction rows with
  | nil => exact (by decide : noEsc "")
  | cons r rs ih =>
      cases rs with
      | nil => exact noEsc_renderRow (h r (List.mem_singleton.mpr rfl))
      | cons r2 rs2 =>
          show noEsc (renderRow ws r ++ sepLine ws ++ rowsSection ws (r2 :: rs2))
          simp only [noEsc_append]
          exact ⟨⟨noEsc_renderRow (h r (List.mem_cons_self r (r2 :: rs2))), noEsc_sepLine ws⟩,
            ih (fun row hrow => h row (List.mem_cons_of_mem r hrow))⟩

theorem noEsc_render_table {rows : List (List String)}
    (h : ∀ row ∈ rows, ∀ c ∈ row, noEsc c) : noEsc (render_table rows) := by
  by_cases hr : rows = []
  · subst hr
    decide
  · simp only [render_table]
    rw [if_neg hr]
    simp only [noEsc_append]
    exact ⟨⟨⟨⟨⟨⟨by decide, noEsc_joinSep (by decide) (noEsc_borderSegs _)⟩, by decide⟩,
      noEsc_rowsSection h⟩, by decide⟩, noEsc_joinSep (by decide) (noEsc_borderSegs _)⟩,
      by decide⟩

theorem noEsc_add_prefix {text : String} (h : noEsc text) :
    noEsc (add_prefix_to_lines text) := by
  unfold add_prefix_to_lines
  apply noEsc_joinSep (by decide)
  intro s hs
  obtain ⟨line, hline, rfl⟩ := List.mem_map.mp hs
  exact noEsc_append.mpr ⟨by decide, noEsc_rustLines h hline⟩

theorem noEsc_bq_finish {r : BlockquoteRenderer} (hl : ∀ l ∈ r.lines, noEsc l)
    (hc : noEsc r.currentLine) : noEsc (BlockquoteRenderer.finish r) := by
  unfold BlockquoteRenderer.finish
  apply noEsc_add_prefix
  apply noEsc_joinSep (by decide)
  by_cases hcc : r.currentLine ≠ ""
  · rw [if_pos hcc]
    intro s hs
    rcases List.mem_append.mp hs with hs | hs
    · exact hl s hs
    · rcases List.mem_singleton.mp hs with rfl
      exact hc
  · rw [if_neg hcc]
    exact hl

theorem noEsc_start_item (r : ListRenderer) (depth : Nat) :
    noEsc (ListRenderer.start_item r depth).2 := by
  unfold ListRenderer.start_item
  split
  · rcases h : r.itemIndices.getLast? with _ | idx
    · exact noEsc_strRepeat (by decide) (depth - 1)
    · show noEsc (strRepeat "  " (depth - 1) ++ Nat.repr (idx + 1) ++ ". ")
      simp only [noEsc_append]
      exact ⟨⟨noEsc_strRepeat (by decide) (depth - 1), noEsc_natRepr (idx + 1)⟩, by decide⟩
  · show noEsc (strRepeat "  " (depth - 1) ++ "• ")
    exact noEsc_append.mpr ⟨noEsc_strRepeat (by decide) (depth - 1), by decide⟩

theorem noEsc_rustTrimEnd {s : String} (h : noEsc s) : noEsc (rustTrimEnd s) := by
  intro hm
  apply h
  unfold rustTrimEnd at hm
  have hm2 : escChar ∈ (s.data.reverse.dropWhile Char.isWhitespace).reverse := hm
  rw [List.mem_reverse] at hm2
  have hm3 : escChar ∈ s.data.reverse :=
    (List.dropWhile_sublist Char.isWhitespace).subset hm2
  exact List.mem_reverse.mp hm3

theorem noEsc_pushIndent {ctx : RenderContext} (h : noEsc ctx.output) (n : Nat) :
    noEsc (pushIndent ctx n).output := by
  induction n generalizing ctx with
  | zero => exact h
  | succ n ih =>
      show noEsc (pushIndent (push_str ctx "  ") n).output
      exact ih (noEsc_append.mpr ⟨h, by decide⟩)

/-! ## Escape-freedom of the driver state -/

theorem StateNoEsc.withContext {st : RenderState} (h : StateNoEsc st) {c : RenderContext}
    (hc : noEsc c.output) : StateNoEsc { st with context := c } :=
  ⟨hc, h.code, h.tableRows, h.tableRow, h.tableCell, h.bqLines, h.bqLine⟩

theorem noEsc_push_str_out {ctx : RenderContext} {s : String} (h : noEsc ctx.output)
    (hs : noEsc s) : noEsc (push_str ctx s).output := noEsc_append.mpr ⟨h, hs⟩

theorem noEsc_push_newline_out {ctx : RenderContext} (h : noEsc ctx.output) :
    noEsc (push_newline ctx).output := noEsc_append.mpr ⟨h, by decide⟩

theorem noEsc_ensure_newline_out {ctx : RenderContext} (h : noEsc ctx.output) :
    noEsc (ensure_newline ctx).output := by
  unfold ensure_newline
  by_cases hc : ctx.output ≠ "" ∧ ¬ strEndsWith ctx.output "\n"
  · rw [if_pos hc]
    exact noEsc_push_newline_out h
  · rw [if_neg hc]
    exact h

theorem noEsc_ensure_blank_line_out {ctx : RenderContext} (h : noEsc ctx.output) :
    noEsc (ensure_blank_line ctx).output := by
  unfold ensure_blank_line
  by_cases hc : ctx.output ≠ "" ∧ ¬ strEndsWith ctx.output "\n\n" ∧ ctx.pendingNewlines < 2
  · rw [if_pos hc]
    exact noEsc_push_newline_out h
  · rw [if_neg hc]
    exact h

theorem finish_row_rows {t : TableRenderer}
    (hrows : ∀ row ∈ t.rows, ∀ c ∈ row, noEsc c)
    (hrow : ∀ c ∈ t.currentRow, noEsc c) :
    ∀ row ∈ t.finish_row.rows, ∀ c ∈ row, noEsc c := by
  unfold TableRenderer.finish_row
  by_cases he : t.currentRow = []
  · rw [if_pos he]
    exact hrows
  · rw [if_neg he]
    intro row hrowm
    rcases List.mem_append.mp hrowm with hm | hm
    · exact hrows row hm
    · rcases List.mem_singleton.mp hm with rfl
      exact hrow

theorem finish_row_row {t : TableRenderer} (hrow : ∀ c ∈ t.currentRow, noEsc c) :
    ∀ c ∈ t.finish_row.currentRow, noEsc c := by
  unfold TableRenderer.finish_row
  by_cases he : t.currentRow = []
  · rw [if_pos he]
    exact hrow
  · rw [if_neg he]
    intro c hc
    cases hc

theorem finish_row_cell {t : TableRenderer} (hc : noEsc t.currentCell) :
    noEsc t.finish_row.currentCell := by
  unfold TableRenderer.finish_row
  by_cases he : t.currentRow = []
  · rw [if_pos he]
    exact hc
  · rw [if_neg he]
    exact hc

theorem step_noEsc {st st' : RenderState} {e : Event} (hs : StateNoEsc st)
    (he : eventNoEsc e) (h : step false st e = some st') : StateNoEsc st' := by
  obtain ⟨ctx, cr, tr, br, ld, lr, ii⟩ := st
  obtain ⟨hout, hcode, htrows, htrow, htcell, hbql, hbqc⟩ := hs
  cases e with
  | Start t =>
      cases t with
      | Paragraph =>
          obtain rfl := Option.some.inj h
          exact ⟨noEsc_ensure_blank_line_out hout, hcode, htrows, htrow, htcell, hbql, hbqc⟩
      | Heading level =>
          obtain rfl := Option.some.inj h
          exact ⟨noEsc_ensure_newline_out hout, hcode, htrows, htrow, htcell, hbql, hbqc⟩
      | List num =>
          obtain rfl := Option.some.inj h
          exact ⟨hout, hcode, htrows, htrow, htcell, hbql, hbqc⟩
      | Item =>
          cases lr with
          | none =>
              obtain rfl := Option.some.inj h
              exact ⟨hout, hcode, htrows, htrow, htcell, hbql, hbqc⟩
          | some r =>
              simp only [step] at h
              by_cases hld : ld = 0
              · rw [if_pos hld] at h
                exact Option.noConfusion h
              · rw [if_neg hld] at h
                obtain rfl := Option.some.inj h
                exact ⟨noEsc_append.mpr ⟨hout, noEsc_start_item r ld⟩,
                  hcode, htrows, htrow, htcell, hbql, hbqc⟩
      | CodeBlock =>
          obtain rfl := Option.some.inj h
          refine ⟨hout, ?_, htrows, htrow, htcell, hbql, hbqc⟩
          intro r hr
          obtain rfl := Option.some.inj hr
          decide
      | BlockQuote =>
          obtain rfl := Option.some.inj h
          refine ⟨noEsc_ensure_newline_out hout, hcode, htrows, htrow, htcell, ?_, ?_⟩
          · intro r hr
            obtain rfl := Option.some.inj hr
            intro l hl
            cases hl
          · intro r hr
            obtain rfl := Option.some.inj hr
            decide
      | Table =>
          obtain rfl := Option.some.inj h
          refine ⟨noEsc_ensure_newline_out hout, hcode, ?_, ?_, ?_, hbql, hbqc⟩
          · intro r hr
            obtain rfl := Option.some.inj hr
            intro row hrow
            cases hrow
          · intro r hr
            obtain rfl := Option.some.inj hr
            intro c hc
            cases hc
          · intro r hr
            obtain rfl := Option.some.inj hr
            decide
      | TableHead =>
          cases tr with
          | none =>
              obtain rfl := Option.some.inj h
              refine ⟨hout, hcode, ?_, ?_, ?_, hbql, hbqc⟩ <;>
                (intro r hr; exact Option.noConfusion hr)
          | some tRen =>
              obtain rfl := Option.some.inj h
              refine ⟨hout, hcode, ?_, ?_, ?_, hbql, hbqc⟩
              · intro r hr
                obtain rfl := Option.some.inj hr
                exact htrows tRen rfl
              · intro r hr
                obtain rfl := Option.some.inj hr
                intro c hc
                cases hc
              · intro r hr
                obtain rfl := Option.some.inj hr
                exact htcell tRen rfl
      | TableRow =>
          cases tr with
          | none =>
              obtain rfl := Option.some.inj h
              refine ⟨hout, hcode, ?_, ?_, ?_, hbql, hbqc⟩ <;>
                (intro r hr; exact Option.noConfusion hr)
          | some tRen =>
              obtain rfl := Option.some.inj h
              refine ⟨hout, hcode, ?_, ?_, ?_, hbql, hbqc⟩
              · intro r hr
                obtain rfl := Option.some.inj hr
                exact htrows tRen rfl
              · intro r hr
                obtain rfl := Option.some.inj hr
                intro c hc
                cases hc
              · intro r hr
                obtain rfl := Option.some.inj hr
                exact htcell tRen rfl
      | TableCell =>
          cases tr with
          | none =>
              obtain rfl := Option.some.inj h
              refine ⟨hout, hcode, ?_, ?_, ?_, hbql, hbqc⟩ <;>
                (intro r hr; exact Option.noConfusion hr)
          | some tRen =>
              obtain rfl := Option.some.inj h
              refine ⟨hout, hcode, ?_, ?_, ?_, hbql, hbqc⟩
              · intro r hr
                obtain rfl := Option.some.inj hr
                exact htrows tRen rfl
              · intro r hr
                obtain rfl := Option.some.inj hr
                exact htrow tRen rfl
              · intro r hr
                obtain rfl := Option.some.inj hr
                exact (by decide : noEsc "")
      | Emphasis =>
          obtain rfl := Option.some.inj h
          exact ⟨hout, hcode, htrows, htrow, htcell, hbql, hbqc⟩
      | Strong =>
          obtain rfl := Option.some.inj h
          exact ⟨hout, hcode, htrows, htrow, htcell, hbql, hbqc⟩
      | Link =>
          obtain rfl := Option.some.inj h
          exact ⟨hout, hcode, htrows, htrow, htcell, hbql, hbqc⟩
      | Other =>
          obtain rfl := Option.some.inj h
          exact ⟨hout, hcode, htrows, htrow, htcell, hbql, hbqc⟩
  | End t =>
      cases t with
      | Paragraph =>
          obtain rfl := Option.some.inj h
          exact ⟨noEsc_push_newline_out hout, hcode, htrows, htrow, htcell, hbql, hbqc⟩
      | Heading level =>
          obtain rfl := Option.some.inj h
          exact ⟨noEsc_push_newline_out (noEsc_push_newline_out hout),
            hcode, htrows, htrow, htcell, hbql, hbqc⟩
      | List num =>
          simp only [step] at h
          by_cases h0 : ld = 0
          · rw [if_pos h0] at h
            exact Option.noConfusion h
          · rw [if_neg h0] at h
            by_cases h1 : ld - 1 = 0
            · rw [if_pos h1] at h
              obtain rfl := Option.some.inj h
              exact ⟨noEsc_push_newline_out hout, hcode, htrows, htrow, htcell, hbql, hbqc⟩
            · rw [if_neg h1] at h
              obtain rfl := Option.some.inj h
              exact ⟨hout, hcode, htrows, htrow, htcell, hbql, hbqc⟩
      | Item =>
          obtain rfl := Option.some.inj h
          exact ⟨noEsc_push_newline_out hout, hcode, htrows, htrow, htcell, hbql, hbqc⟩
      | CodeBlock =>
          cases cr with
          | none =>
              obtain rfl := Option.some.inj h
              refine ⟨noEsc_push_newline_out hout, ?_, htrows, htrow, htcell, hbql, hbqc⟩
              intro r hr
              exact Option.noConfusion hr
          | some r =>
              obtain rfl := Option.some.inj h
              refine ⟨noEsc_push_newline_out (noEsc_push_str_out hout
                (noEsc_render_code_block (hcode r rfl))), ?_, htrows, htrow, htcell, hbql, hbqc⟩
              intro r2 hr2
              exact Option.noConfusion hr2
      | BlockQuote =>
          cases br with
          | none =>
              obtain rfl := Option.some.inj h
              refine ⟨noEsc_push_newline_out hout, hcode, htrows, htrow, htcell, ?_, ?_⟩ <;>
                (intro r hr; exact Option.noConfusion hr)
          | some b =>
              obtain rfl := Option.some.inj h
              refine ⟨noEsc_push_newline_out (noEsc_push_str_out hout
                (noEsc_bq_finish (hbql b rfl) (hbqc b rfl))),
                hcode, htrows, htrow, htcell, ?_, ?_⟩ <;>
                (intro r hr; exact Option.noConfusion hr)
      | Table =>
          cases tr with
          | none =>
              obtain rfl := Option.some.inj h
              refine ⟨noEsc_push_newline_out hout, hcode, ?_, ?_, ?_, hbql, hbqc⟩ <;>
                (intro r hr; exact Option.noConfusion hr)
          | some tRen =>
              obtain rfl := Option.some.inj h
              refine ⟨noEsc_push_newline_out (noEsc_push_str_out hout
                (noEsc_render_table (htrows tRen rfl))), hcode, ?_, ?_, ?_, hbql, hbqc⟩ <;>
                (intro r hr; exact Option.noConfusion hr)
      | TableHead =>
          cases tr with
          | none =>
              obtain rfl := Option.some.inj h
              refine ⟨hout, hcode, ?_, ?_, ?_, hbql, hbqc⟩ <;>
                (intro r hr; exact Option.noConfusion hr)
          | some tRen =>
              obtain rfl := Option.some.inj h
              refine ⟨hout, hcode, ?_, ?_, ?_, hbql, hbqc⟩
              · intro r hr
                obtain rfl := Option.some.inj hr
                exact finish_row_rows (htrows tRen rfl) (htrow tRen rfl)
              · intro r hr
                obtain rfl := Option.some.inj hr
                exact finish_row_row (htrow tRen rfl)
              · intro r hr
                obtain rfl := Option.some.inj hr
                exact finish_row_cell (htcell tRen rfl)
      | TableRow =>
          cases tr with
          | none =>
              obtain rfl := Option.some.inj h
              refine ⟨hout, hcode, ?_, ?_, ?_, hbql, hbqc⟩ <;>
                (intro r hr; exact Option.noConfusion hr)
          | some tRen =>
              obtain rfl := Option.some.inj h
              refine ⟨hout, hcode, ?_, ?_, ?_, hbql, hbqc⟩
              · intro r hr
                obtain rfl := Option.some.inj hr
                exact finish_row_rows (htrows tRen rfl) (htrow tRen rfl)
              · intro r hr
                obtain rfl := Option.some.inj hr
                exact finish_row_row (htrow tRen rfl)
              · intro r hr
                obtain rfl := Option.some.inj hr
                exact finish_row_cell (htcell tRen rfl)
      | TableCell =>
          cases tr with
          | none =>
              obtain rfl := Option.some.inj h
              refine ⟨hout, hcode, ?_, ?_, ?_, hbql, hbqc⟩ <;>
                (intro r hr; exact Option.noConfusion hr)
          | some tRen =>
              obtain rfl := Option.some.inj h
              refine ⟨hout, hcode, ?_, ?_, ?_, hbql, hbqc⟩
              · intro r hr
                obtain rfl := Option.some.inj hr
                exact htrows tRen rfl
              · intro r hr
                obtain rfl := Option.some.inj hr
                intro c hc
                rcases List.mem_append.mp hc with hm | hm
                · exact htrow tRen rfl c hm
                · rcases List.mem_singleton.mp hm with rfl
                  exact htcell tRen rfl
              · intro r hr
                obtain rfl := Option.some.inj hr
                exact (by decide : noEsc "")
      | Emphasis =>
          obtain rfl := Option.some.inj h
          exact ⟨hout, hcode, htrows, htrow, htcell, hbql, hbqc⟩
      | Strong =>
          obtain rfl := Option.some.inj h
          exact ⟨hout, hcode, htrows, htrow, htcell, hbql, hbqc⟩
      | Link =>
          obtain rfl := Option.some.inj h
          exact ⟨hout, hcode, htrows, htrow, htcell, hbql, hbqc⟩
      | Other =>
          obtain rfl := Option.some.inj h
          exact ⟨hout, hcode, htrows, htrow, htcell, hbql, hbqc⟩
  | Text s =>
      cases cr with
      | some r =>
          obtain rfl := Option.some.inj h
          refine ⟨hout, ?_, htrows, htrow, htcell, hbql, hbqc⟩
          intro r2 hr2
          obtain rfl := Option.some.inj hr2
          exact noEsc_append.mpr ⟨hcode r rfl, he⟩
      | none =>
          cases tr with
          | some tRen =>
              obtain rfl := Option.some.inj h
              refine ⟨hout, hcode, ?_, ?_, ?_, hbql, hbqc⟩
              · intro r hr
                obtain rfl := Option.some.inj hr
                exact htrows tRen rfl
              · intro r hr
                obtain rfl := Option.some.inj hr
                exact htrow tRen rfl
              · intro r hr
                obtain rfl := Option.some.inj hr
                exact noEsc_append.mpr ⟨htcell tRen rfl, he⟩
          | none =>
              cases br with
              | some b =>
                  obtain rfl := Option.some.inj h
                  refine ⟨hout, hcode, htrows, htrow, htcell, ?_, ?_⟩
                  · intro r hr
                    obtain rfl := Option.some.inj hr
                    exact hbql b rfl
                  · intro r hr
                    obtain rfl := Option.some.inj hr
                    exact noEsc_append.mpr ⟨hbqc b rfl, he⟩
              | none =>
                  obtain rfl := Option.some.inj h
                  exact ⟨noEsc_push_str_out hout he, hcode, htrows, htrow, htcell, hbql, hbqc⟩
  | SoftBreak =>
      cases cr with
      | some r =>
          obtain rfl := Option.some.inj h
          refine ⟨hout, ?_, htrows, htrow, htcell, hbql, hbqc⟩
          intro r2 hr2
          obtain rfl := Option.some.inj hr2
          exact noEsc_append.mpr ⟨hcode r rfl, by decide⟩
      | none =>
          cases tr with
          | some tRen =>
              obtain rfl := Option.some.inj h
              refine ⟨hout, hcode, ?_, ?_, ?_, hbql, hbqc⟩
              · intro r hr
                obtain rfl := Option.some.inj hr
                exact htrows tRen rfl
              · intro r hr
                obtain rfl := Option.some.inj hr
                exact htrow tRen rfl
              · intro r hr
                obtain rfl := Option.some.inj hr
                exact noEsc_append.mpr ⟨htcell tRen rfl, by decide⟩
          | none =>
              cases br with
              | some b =>
                  obtain rfl := Option.some.inj h
                  refine ⟨hout, hcode, htrows, htrow, htcell, ?_, ?_⟩
                  · intro r hr
                    obtain rfl := Option.some.inj hr
                    intro l hl
                    rcases List.mem_append.mp hl with hm | hm
                    · exact hbql b rfl l hm
                    · rcases List.mem_singleton.mp hm with rfl
                      exact hbqc b rfl
                  · intro r hr
                    obtain rfl := Option.some.inj hr
                    exact (by decide : noEsc "")
              | none =>
                  obtain rfl := Option.some.inj h
                  exact ⟨noEsc_push_str_out hout (by decide),
                    hcode, htrows, htrow, htcell, hbql, hbqc⟩
  | HardBreak =>
      cases cr with
      | some r =>
          obtain rfl := Option.some.inj h
          refine ⟨hout, ?_, htrows, htrow, htcell, hbql, hbqc⟩
          intro r2 hr2
          obtain rfl := Option.some.inj hr2
          exact noEsc_append.mpr ⟨hcode r rfl, by decide⟩
      | none =>
          cases tr with
          | some tRen =>
              obtain rfl := Option.some.inj h
              refine ⟨hout, hcode, ?_, ?_, ?_, hbql, hbqc⟩
              · intro r hr
                obtain rfl := Option.some.inj hr
                exact htrows tRen rfl
              · intro r hr
                obtain rfl := Option.some.inj hr
                exact htrow tRen rfl
              · intro r hr
                obtain rfl := Option.some.inj hr
                exact noEsc_append.mpr ⟨htcell tRen rfl, by decide⟩
          | none =>
              cases br with
              | some b =>
                  obtain rfl := Option.some.inj h
                  refine ⟨hout, hcode, htrows, htrow, htcell, ?_, ?_⟩
                  · intro r hr
                    obtain rfl := Option.some.inj hr
                    intro l hl
                    rcases List.mem_append.mp hl with hm | hm
                    · exact hbql b rfl l hm
                    · rcases List.mem_singleton.mp hm with rfl
                      exact hbqc b rfl
                  · intro r hr
                    obtain rfl := Option.some.inj hr
                    exact (by decide : noEsc "")
              | none =>
                  simp only [step] at h
                  by_cases hc : ii ∧ 0 < ld
                  · rw [if_pos hc] at h
                    obtain rfl := Option.some.inj h
                    exact ⟨noEsc_push_str_out
                        (noEsc_pushIndent (noEsc_push_newline_out hout) (ld - 1)) (by decide),
                      hcode, htrows, htrow, htcell, hbql, hbqc⟩
                  · rw [if_neg hc] at h
                    obtain rfl := Option.some.inj h
                    exact ⟨noEsc_push_newline_out hout,
                      hcode, htrows, htrow, htcell, hbql, hbqc⟩
  | Html s =>
      obtain rfl := Option.some.inj h
      exact ⟨hout, hcode, htrows, htrow, htcell, hbql, hbqc⟩
  | Code s =>
      obtain rfl := Option.some.inj h
      exact ⟨noEsc_push_str_out hout he, hcode, htrows, htrow, htcell, hbql, hbqc⟩
  | TaskListMarker checked =>
      obtain rfl := Option.some.inj h
      refine ⟨noEsc_push_str_out hout ?_, hcode, htrows, htrow, htcell, hbql, hbqc⟩
      cases checked <;> decide
  | Other =>
      obtain rfl := Option.some.inj h
      exact ⟨hout, hcode, htrows, htrow, htcell, hbql, hbqc⟩

theorem initState_noEsc (useColors : Bool) : StateNoEsc (initState useColors) :=
  ⟨(by decide : noEsc ""), (fun _ h => nomatch h), (fun _ h => nomatch h), (fun _ h => nomatch h),
   (fun _ h => nomatch h), (fun _ h => nomatch h), (fun _ h => nomatch h)⟩

theorem foldlM_step_noEsc :
    ∀ (events : List Event) (st : RenderState), StateNoEsc st →
      (∀ e ∈ events, eventNoEsc e) →
      ∀ st', events.foldlM (fun s e => step false s e) st = some st' → StateNoEsc st' := by
  intro events
  induction events with
  | nil =>
      intro st hs _ st' h
      rw [List.foldlM_nil] at h
      obtain rfl := Option.some.inj h
      exact hs
  | cons e es ih =>
      intro st hs hes st' h
      rw [List.foldlM_cons] at h
      cases hstep : step false st e with
      | none =>
          rw [hstep] at h
          exact Option.noConfusion h
      | some s2 =>
          rw [hstep] at h
          exact ih s2 (step_noEsc hs (hes e (List.mem_cons_self e es)) hstep)
            (fun x hx => hes x (List.mem_cons_of_mem e hx)) st' h

/-- C4 amended theorem: with colors disabled every text run and every
inline-code span is rendered byte-for-byte equal to its source text, and
the renderer introduces no ANSI escape sequences: whenever no event
payload contains the escape character, the whole rendered output is free
of it.  (An escape character already present in the input passes through,
see the counterexample.) -/
theorem c4_no_colors_identity_no_escape :
    (∀ (text : String) (stack : List FormattingState),
        render_text false text stack = text) ∧
    (∀ code : String, render_inline_code false code = code) ∧
    (∀ (events : List Event) (out : String), (∀ e ∈ events, eventNoEsc e) →
        renderEvents false events = some out → noEsc out) := by
  refine ⟨fun text stack => rfl, fun code => rfl, ?_⟩
  intro events out he h
  unfold renderEvents at h
  cases hrun : runEvents false events with
  | none =>
      rw [hrun] at h
      exact Option.noConfusion h
  | some stf =>
      rw [hrun] at h
      obtain rfl := Option.some.inj h
      have hstf : StateNoEsc stf :=
        foldlM_step_noEsc events (initState false) (initState_noEsc false) he stf hrun
      exact noEsc_append.mpr ⟨noEsc_rustTrimEnd hstf.out, by decide⟩

/-- C4 witness: identity of colorless rendering at concrete inputs, and
the no-escape conclusion at a concrete escape-free event sequence. -/
theorem c4_witness :
    render_text false "hi" [] = "hi" ∧
    render_inline_code false "hi" = "hi" ∧
    noEsc "hi\n" :=
  ⟨c4_no_colors_identity_no_escape.1 "hi" [],
   c4_no_colors_identity_no_escape.2.1 "hi",
   c4_no_colors_identity_no_escape.2.2 [.Start .Paragraph, .Text "hi", .End .Paragraph]
     "hi\n" (by decide) (by decide)⟩
